import Mathlib

/-!
Shallow embedding of the textual-logic parser and forward-chaining evaluator
of `Python_reimplementation.py` (functions `split_predicates`, `parse_logic`,
`apply_rules`), together with theorems settling the specification claims.

Python strings are modelled as Lean `String`; Python `list`/`tuple` as
Lean `List`; a Python function that can raise is modelled as returning
`Option` (with `none` for an uncaught exception).
-/

namespace PyLogic

/-! ## Python string primitives used by the source -/

/-- The whitespace characters stripped by Python's `str.strip()`. -/
def isPyWs (c : Char) : Bool :=
  c = ' ' || c = '\t' || c = '\n' || c = '\r' || c = '\x0b' || c = '\x0c'

/-- Drop characters satisfying `p` from both ends of a character list. -/
def stripEnds (p : Char → Bool) (l : List Char) : List Char :=
  ((l.dropWhile p).reverse.dropWhile p).reverse

/-- Python `s.strip()` (no argument): strip whitespace from both ends. -/
def pyStrip (s : String) : String := ⟨stripEnds isPyWs s.data⟩

/-- Python `s.strip(c)` for a one-character argument: strip all copies of
`c` from both ends (used in the source as `.strip('.')` and `.strip(')')`). -/
def pyStripChar (c : Char) (s : String) : String :=
  ⟨stripEnds (fun x => x = c) s.data⟩

/-- Prepend a character to the first piece of a split result. -/
def consHead (c : Char) : List (List Char) → List (List Char)
  | [] => [[c]]
  | p :: ps => (c :: p) :: ps

/-- Split a character list at every occurrence of `sep` (Python
`s.split(sep)` for a one-character separator: keeps empty pieces). -/
def splitOnCharAux (sep : Char) : List Char → List (List Char)
  | [] => [[]]
  | c :: cs =>
    if c = sep then [] :: splitOnCharAux sep cs
    else consHead c (splitOnCharAux sep cs)

/-- Python `s.split(sep)` for a one-character separator. -/
def pySplitChar (sep : Char) (s : String) : List String :=
  (splitOnCharAux sep s.data).map fun l => ⟨l⟩

/-- Split at every (non-overlapping, leftmost-first) occurrence of the
two-character rule operator `:-` (Python `s.split(':-')`). -/
def splitColonDashAux : List Char → List (List Char)
  | [] => [[]]
  | ':' :: '-' :: cs => [] :: splitColonDashAux cs
  | c :: cs => consHead c (splitColonDashAux cs)

/-- Python `s.split(':-')`. -/
def pySplitColonDash (s : String) : List String :=
  (splitColonDashAux s.data).map fun l => ⟨l⟩

/-- Python `':-' in s`. -/
def containsColonDashAux : List Char → Bool
  | [] => false
  | ':' :: '-' :: _ => true
  | _ :: cs => containsColonDashAux cs

/-- Python `':-' in s`. -/
def containsColonDash (s : String) : Bool := containsColonDashAux s.data

/-- Python `c in s` for a one-character `c`. -/
def pyContainsChar (c : Char) (s : String) : Bool := s.data.contains c

/-- Python `s.startswith(c)` for a one-character `c`. -/
def pyStartsWithChar (c : Char) (s : String) : Bool :=
  match s.data with
  | [] => false
  | x :: _ => x = c

/-- Python `s.endswith(c)` for a one-character `c`. -/
def pyEndsWithChar (c : Char) (s : String) : Bool :=
  match s.data.getLast? with
  | none => false
  | some x => x = c

/-- Python `s.replace(pat, '')` on character lists: delete every
(non-overlapping, leftmost-first) occurrence of the non-empty pattern.
The `fuel` argument (instantiated with the list length) only forces
structural recursion; each step consumes at least one character. -/
def replaceDeleteAux (pat : List Char) : Nat → List Char → List Char
  | _, [] => []
  | 0, l => l
  | fuel + 1, c :: cs =>
    if pat ≠ [] ∧ pat.isPrefixOf (c :: cs) then
      replaceDeleteAux pat fuel (cs.drop (pat.length - 1))
    else c :: replaceDeleteAux pat fuel cs

/-- Python `s.replace(pat, '')`. -/
def pyReplaceEmpty (pat s : String) : String :=
  ⟨replaceDeleteAux pat.data s.data.length s.data⟩

/-! ## `split_predicates` (source lines 14-15)

The source splits a rule body with `re.split(r',\s*(?![^()]*\))', body)`:
a comma is a split point exactly when the negative lookahead holds, i.e.
when the remainder of the string does NOT have a `)` before its first `(`.
On a split the regex also consumes the whitespace following the comma
(`\s*`); since the skipped whitespace contains no parenthesis and no comma,
this is modelled by dropping the leading whitespace of the next piece. -/

/-- Returns `true` iff the first parenthesis character occurring in the list is `)`
(this is exactly when `[^()]*\)` matches at the front, i.e. when the
regex's negative lookahead fails and the comma is kept). -/
def firstParenClose : List Char → Bool
  | [] => false
  | c :: cs => if c = '(' then false else if c = ')' then true else firstParenClose cs

/-- The split performed by `re.split(r',\s*(?![^()]*\))', ·)`. -/
def regexSplitCommaAux : List Char → List (List Char)
  | [] => [[]]
  | c :: cs =>
    if c = ',' ∧ firstParenClose cs = false then
      [] :: (regexSplitCommaAux cs).modifyHead (fun l => l.dropWhile isPyWs)
    else consHead c (regexSplitCommaAux cs)

/-- `split_predicates` (source line 14): regex split, then `strip` each piece. -/
def split_predicates (body_text : String) : List String :=
  (regexSplitCommaAux body_text.data).map fun l => pyStrip ⟨l⟩

/-! ## `parse_logic` (source lines 61-86) -/

/-- A parsed fact: `(predicate name, argument list)`. -/
abbrev Fact := String × List String

/-- Parse `name(args)` by `name, args = s.split('(')` (raising — `none` —
unless `(` occurs exactly once), then `args.strip(')').split(',')` with each
argument stripped.  The name half is returned as-is; callers strip it (or
not) exactly as the source does. -/
def parseCallRaw (s : String) : Option (String × List String) :=
  match pySplitChar '(' s with
  | [n, a] => some (n, (pySplitChar ',' (pyStripChar ')' a)).map pyStrip)
  | _ => none

/-- The loop state of `parse_logic`: facts and rules collected so far, and
the pending multi-line rule accumulator `current_rule`. -/
structure ParseState where
  facts : List Fact
  rules : List String
  cur : String
deriving DecidableEq, Repr

/-- One iteration of the `for line in lines` loop of `parse_logic`
(source lines 69-84); `none` models the `ValueError` raised by
`predicate, args = line.strip('.').split('(')` when `(` does not occur
exactly once in the line. -/
def parseLogicLine (st : ParseState) (rawLine : String) : Option ParseState :=
  let line := pyStrip rawLine
  if line = "" ∨ pyStartsWithChar '%' line = true then some st
  else if containsColonDash line = true ∨ st.cur ≠ "" then
    let cur := st.cur ++ " " ++ line
    if pyEndsWithChar '.' (pyStrip cur) = true then
      some ⟨st.facts, st.rules ++ [pyStripChar '.' (pyStrip cur)], ""⟩
    else some ⟨st.facts, st.rules, cur⟩
  else if pyContainsChar '(' line = true ∧ pyContainsChar ')' line = true then
    match parseCallRaw (pyStripChar '.' line) with
    | some (p, args) => some ⟨st.facts ++ [(pyStrip p, args)], st.rules, st.cur⟩
    | none => none
  else some st

/-- Fold `parseLogicLine` over the lines of the input. -/
def parseLogicLines : ParseState → List String → Option ParseState
  | st, [] => some st
  | st, l :: ls =>
    match parseLogicLine st l with
    | some st' => parseLogicLines st' ls
    | none => none

/-- `parse_logic` (source lines 61-86): drop code fences, strip, split into
lines, run the line loop, and return the collected facts and rules (the
pending `current_rule`, if still open, is discarded). -/
def parse_logic (logic_text : String) : Option (List Fact × List String) :=
  let t := pyReplaceEmpty "```" (pyReplaceEmpty "```prolog" logic_text)
  match parseLogicLines ⟨[], [], ""⟩ (pySplitChar '\n' (pyStrip t)) with
  | some st => some (st.facts, st.rules)
  | none => none

/-! ## `apply_rules` (source lines 91-144) -/

/-- The fact store lookup `fact_dict.get(name, [])` (source lines 92-94,
125): `fact_dict` groups the argument lists of the directly parsed facts by
predicate name, preserving insertion order, so looking up a name yields the
argument lists of exactly the input facts carrying that name, in order. -/
def fact_dict_lookup (facts : List Fact) (name : String) : List (List String) :=
  (facts.filter fun f => f.1 = name).map Prod.snd

/-- One binding attempt (source lines 132-137): if the term is already
bound, an equal value is accepted and a different value rejects the
combination (`none`); an unbound term is bound to the fact value. -/
def bindTerm (bnd : List (String × String)) (var val : String) :
    Option (List (String × String)) :=
  match bnd.lookup var with
  | some v => if v = val then some bnd else none
  | none => some (bnd ++ [(var, val)])

/-- Fold a single `(term, value)` pair into an ongoing match. -/
def bindPair (ob : Option (List (String × String))) (p : String × String) :
    Option (List (String × String)) :=
  match ob with
  | none => none
  | some bnd => bindTerm bnd p.1 p.2

/-- The consistent-binding walk over one candidate combination (source
lines 128-139): zip every body call's term list against its chosen fact's
value list and fold the binding attempts, starting from empty bindings. -/
def matchCombo (bodyPreds : List (String × List String))
    (combo : List (List String)) : Option (List (String × String)) :=
  ((bodyPreds.map Prod.snd).zip combo).foldl
    (fun ob pr => (pr.1.zip pr.2).foldl bindPair ob) (some [])

/-- Head instantiation (source line 141): look every head parameter up in
the bindings, substituting the sentinel `?` when unbound. -/
def instantiateHead (bnd : List (String × String)) (headArgs : List String) :
    List String :=
  headArgs.map fun v => (bnd.lookup (pyStrip v)).getD "?"

/-- `derived_facts.add(f)` (source line 142) on the insertion-ordered list
model of the Python set: append unless already present. -/
def addFact (s : List Fact) (f : Fact) : List Fact :=
  if f ∈ s then s else s ++ [f]

/-- `itertools.product` over a list of candidate lists, leftmost factor
varying slowest (source line 127). -/
def listProduct : List (List α) → List (List α)
  | [] => [[]]
  | l :: ls => l.flatMap fun x => (listProduct ls).map (x :: ·)

/-- Processing of one candidate combination (source lines 127-142): on a
consistent binding the instantiated head is added to the derived set; a
rejected combination leaves the set unchanged. -/
def comboStep (headPred : String) (headArgs : List String)
    (bodyPreds : List (String × List String))
    (acc : List Fact) (combo : List (List String)) : List Fact :=
  match matchCombo bodyPreds combo with
  | some bnd => addFact acc (headPred, instantiateHead bnd headArgs)
  | none => acc

/-- The body-half preprocessing of source lines 103-105: strip, then remove
one pair of enclosing parentheses if the body both starts with `(` and
ends with `)`. -/
def ruleBodyText (body : String) : String :=
  let b := pyStrip body
  if pyStartsWithChar '(' b = true ∧ pyEndsWithChar ')' b = true then
    ⟨(b.data.drop 1).dropLast⟩
  else b

/-- The body-call parse loop of source lines 109-116: a segment without
both parentheses is skipped; a segment with them must contain exactly one
`(` (otherwise the unpacking raises, modelled by `none`); the call's name
is stripped. -/
def parseBodyPreds : List String → Option (List (String × List String))
  | [] => some []
  | b :: bs =>
    if pyContainsChar '(' b = true ∧ pyContainsChar ')' b = true then
      match parseCallRaw b with
      | some (n, args) => (parseBodyPreds bs).map ((pyStrip n, args) :: ·)
      | none => none
    else parseBodyPreds bs

/-- The per-rule parsing phase of `apply_rules` (source lines 99-116):
split on `:-` (exactly one occurrence required), parse the stripped head
(exactly one `(` required; the head name is NOT stripped afterwards), and
parse the body calls out of `split_predicates` of the adjusted body. -/
def parseRule (rule : String) :
    Option (String × List String × List (String × List String)) :=
  match pySplitColonDash rule with
  | [head, body] =>
    match parseCallRaw (pyStrip head) with
    | some (hp, ha) =>
      (parseBodyPreds (split_predicates (ruleBodyText body))).map
        fun bps => (hp, ha, bps)
    | none => none
  | _ => none

/-- Evaluation of one rule against the fact store, accumulating into the
derived set (source lines 98-142): a rule with zero parsed body calls is
skipped (source lines 118-120); otherwise every combination of candidate
facts is enumerated and folded through `comboStep`. -/
def evalRuleAcc (facts : List Fact) (acc : List Fact) (rule : String) :
    Option (List Fact) :=
  match parseRule rule with
  | none => none
  | some (hp, ha, bps) =>
    if bps = [] then some acc
    else
      some ((listProduct (bps.map fun bp => fact_dict_lookup facts bp.1)).foldl
        (comboStep hp ha bps) acc)

/-- The `for rule in rules` loop of `apply_rules`. -/
def applyRulesAux (facts : List Fact) : List Fact → List String → Option (List Fact)
  | acc, [] => some acc
  | acc, r :: rs =>
    match evalRuleAcc facts acc r with
    | some acc' => applyRulesAux facts acc' rs
    | none => none

/-- `apply_rules` (source lines 91-144): evaluate every rule once against
the fact store built from the input facts, accumulating the deduplicated
derived-fact set; `none` models an uncaught `ValueError` from rule
parsing. -/
def apply_rules (facts : List Fact) (rules : List String) : Option (List Fact) :=
  applyRulesAux facts [] rules

/-- Decidable well-formedness of one body segment as `apply_rules` needs
it: if the segment contains both parentheses it must contain exactly one
`(`. -/
def segWF (b : String) : Bool :=
  !(pyContainsChar '(' b && pyContainsChar ')' b) ||
    (pySplitChar '(' b).length == 2

/-- Decidable well-formedness of a rule string: exactly one `:-`, exactly
one `(` in the head half, and every body segment well-formed.  These are
precisely the shapes under which the unpacking assignments of
`apply_rules` cannot raise. -/
def ruleWF (rule : String) : Bool :=
  match pySplitColonDash rule with
  | [head, body] =>
    (pySplitChar '(' (pyStrip head)).length == 2 &&
      (split_predicates (ruleBodyText body)).all segWF
  | _ => false

/-! ## Helper lemmas about the evaluator -/

/-- Membership in the Python-set model: `addFact` adds exactly `f`. -/
theorem mem_addFact {s : List Fact} {f x : Fact} :
    x ∈ addFact s f ↔ x ∈ s ∨ x = f := by
  unfold addFact
  by_cases h : f ∈ s
  · simp only [if_pos h]
    exact ⟨Or.inl, fun hx => hx.elim id fun he => he ▸ h⟩
  · simp [if_neg h]

/-- `addFact` preserves freedom from duplicates. -/
theorem nodup_addFact {s : List Fact} {f : Fact} (h : s.Nodup) :
    (addFact s f).Nodup := by
  unfold addFact
  by_cases hf : f ∈ s
  · simpa [if_pos hf]
  · simp [if_neg hf, List.nodup_append, h, hf]

/-- A fact is in the fold of `comboStep` over a combination list iff it was
already accumulated or some combination matches and instantiates to it. -/
theorem mem_foldl_comboStep (p : String) (ha : List String)
    (bps : List (String × List String)) :
    ∀ (combos : List (List (List String))) (acc : List Fact) (x : Fact),
      x ∈ combos.foldl (comboStep p ha bps) acc ↔
        x ∈ acc ∨ ∃ c ∈ combos, ∃ bnd, matchCombo bps c = some bnd ∧
          x = (p, instantiateHead bnd ha) := by
  intro combos
  induction combos with
  | nil => intro acc x; simp
  | cons c cs ih =>
    intro acc x
    rw [List.foldl_cons, ih]
    cases hm : matchCombo bps c with
    | none =>
      simp only [comboStep, hm]
      constructor
      · rintro (hx | ⟨c', hc', rest⟩)
        · exact Or.inl hx
        · exact Or.inr ⟨c', List.mem_cons_of_mem _ hc', rest⟩
      · rintro (hx | ⟨c', hc', bnd', hb', rfl⟩)
        · exact Or.inl hx
        · rcases List.mem_cons.mp hc' with rfl | hc''
          · rw [hm] at hb'; cases hb'
          · exact Or.inr ⟨c', hc'', bnd', hb', rfl⟩
    | some bnd =>
      simp only [comboStep, hm, mem_addFact]
      constructor
      · rintro ((hx | rfl) | ⟨c', hc', rest⟩)
        · exact Or.inl hx
        · exact Or.inr ⟨c, List.mem_cons_self c cs, bnd, hm, rfl⟩
        · exact Or.inr ⟨c', List.mem_cons_of_mem _ hc', rest⟩
      · rintro (hx | ⟨c', hc', bnd', hb', rfl⟩)
        · exact Or.inl (Or.inl hx)
        · rcases List.mem_cons.mp hc' with rfl | hc''
          · rw [hm] at hb'
            injection hb' with he
            subst he
            exact Or.inl (Or.inr rfl)
          · exact Or.inr ⟨c', hc'', bnd', hb', rfl⟩

/-- The fold of `comboStep` preserves freedom from duplicates. -/
theorem nodup_foldl_comboStep (p : String) (ha : List String)
    (bps : List (String × List String)) :
    ∀ (combos : List (List (List String))) (acc : List Fact),
      acc.Nodup → (combos.foldl (comboStep p ha bps) acc).Nodup := by
  intro combos
  induction combos with
  | nil => intro acc h; simpa
  | cons c cs ih =>
    intro acc h
    rw [List.foldl_cons]
    apply ih
    unfold comboStep
    cases matchCombo bps c with
    | none => exact h
    | some bnd => exact nodup_addFact h

/-- Unfolding `evalRuleAcc` when rule parsing raises. -/
theorem evalRuleAcc_none {facts acc : List Fact} {r : String}
    (h : parseRule r = none) : evalRuleAcc facts acc r = none := by
  simp [evalRuleAcc, h]

/-- Unfolding `evalRuleAcc` when the rule has no valid body call: the rule
is skipped and the accumulator is returned unchanged. -/
theorem evalRuleAcc_skip {facts acc : List Fact} {r : String} {p : String}
    {ha : List String} (h : parseRule r = some (p, ha, [])) :
    evalRuleAcc facts acc r = some acc := by
  simp [evalRuleAcc, h]

/-- Unfolding `evalRuleAcc` on a rule with at least one body call. -/
theorem evalRuleAcc_run {facts acc : List Fact} {r : String} {p : String}
    {ha : List String} {bps : List (String × List String)}
    (h : parseRule r = some (p, ha, bps)) (hb : bps ≠ []) :
    evalRuleAcc facts acc r =
      some ((listProduct (bps.map fun bp => fact_dict_lookup facts bp.1)).foldl
        (comboStep p ha bps) acc) := by
  simp [evalRuleAcc, h, hb]

/-- Whether one rule evaluates without raising depends only on the rule
string (the accumulator and fact store never cause an exception). -/
theorem evalRuleAcc_isSome (facts acc : List Fact) (r : String) :
    (evalRuleAcc facts acc r).isSome = (parseRule r).isSome := by
  cases h : parseRule r with
  | none => rw [evalRuleAcc_none h]; rfl
  | some v =>
    obtain ⟨p, ha, bps⟩ := v
    by_cases hb : bps = []
    · subst hb; rw [evalRuleAcc_skip h]; rfl
    · rw [evalRuleAcc_run h hb]; rfl

/-- Membership after evaluating one rule: a fact is in the output iff it
was already accumulated or the rule derives it from the fact store alone
(the accumulator never influences what the rule derives). -/
theorem mem_evalRuleAcc {facts acc out : List Fact} {r : String}
    (h : evalRuleAcc facts acc r = some out) (x : Fact) :
    x ∈ out ↔ x ∈ acc ∨ ∃ ds, evalRuleAcc facts [] r = some ds ∧ x ∈ ds := by
  cases hpr : parseRule r with
  | none => rw [evalRuleAcc_none hpr] at h; cases h
  | some v =>
    obtain ⟨p, ha, bps⟩ := v
    by_cases hb : bps = []
    · subst hb
      rw [evalRuleAcc_skip hpr] at h
      obtain rfl := Option.some.inj h
      rw [evalRuleAcc_skip hpr]
      simp
    · rw [evalRuleAcc_run hpr hb] at h
      obtain rfl := Option.some.inj h
      rw [evalRuleAcc_run hpr hb, mem_foldl_comboStep]
      simp only [Option.some.injEq]
      constructor
      · rintro (hx | hc)
        · exact Or.inl hx
        · exact Or.inr ⟨_, rfl,
            (mem_foldl_comboStep p ha bps _ _ x).mpr (Or.inr hc)⟩
      · rintro (hx | ⟨ds, rfl, hxds⟩)
        · exact Or.inl hx
        · rcases (mem_foldl_comboStep p ha bps _ _ x).mp hxds with h0 | hc
          · exact absurd h0 (List.not_mem_nil x)
          · exact Or.inr hc

/-- Evaluating one rule preserves freedom from duplicates. -/
theorem nodup_evalRuleAcc {facts acc out : List Fact} {r : String}
    (h : evalRuleAcc facts acc r = some out) (hn : acc.Nodup) : out.Nodup := by
  cases hpr : parseRule r with
  | none => rw [evalRuleAcc_none hpr] at h; cases h
  | some v =>
    obtain ⟨p, ha, bps⟩ := v
    by_cases hb : bps = []
    · subst hb
      rw [evalRuleAcc_skip hpr] at h
      obtain rfl := Option.some.inj h
      exact hn
    · rw [evalRuleAcc_run hpr hb] at h
      obtain rfl := Option.some.inj h
      exact nodup_foldl_comboStep p ha bps _ acc hn

/-- The rule loop distributes over list append. -/
theorem applyRulesAux_append (facts : List Fact) :
    ∀ (rs rs' : List String) (acc : List Fact),
      applyRulesAux facts acc (rs ++ rs') =
        (applyRulesAux facts acc rs).bind fun a => applyRulesAux facts a rs' := by
  intro rs
  induction rs with
  | nil => intro rs' acc; rfl
  | cons r rs ih =>
    intro rs' acc
    simp only [List.cons_append, applyRulesAux]
    cases he : evalRuleAcc facts acc r with
    | none => rfl
    | some acc' => exact ih rs' acc'

/-- The rule loop returns without raising iff every rule parses. -/
theorem applyRulesAux_isSome (facts : List Fact) :
    ∀ (rs : List String) (acc : List Fact),
      (applyRulesAux facts acc rs).isSome = true ↔
        ∀ r ∈ rs, (parseRule r).isSome = true := by
  intro rs
  induction rs with
  | nil => intro acc; simp [applyRulesAux]
  | cons r rs ih =>
    intro acc
    simp only [applyRulesAux]
    cases he : evalRuleAcc facts acc r with
    | none =>
      have hr : (parseRule r).isSome = false := by
        have := evalRuleAcc_isSome facts acc r
        rw [he] at this
        exact this.symm
      simp [List.forall_mem_cons, hr]
    | some acc' =>
      have hr : (parseRule r).isSome = true := by
        have := evalRuleAcc_isSome facts acc r
        rw [he] at this
        exact this.symm
      simp [List.forall_mem_cons, hr, ih acc']

/-- Membership after the rule loop: a fact is in the output iff it was
already accumulated or some rule of the list derives it from the fact
store alone. -/
theorem mem_applyRulesAux (facts : List Fact) :
    ∀ (rs : List String) (acc out : List Fact),
      applyRulesAux facts acc rs = some out →
      ∀ x : Fact, x ∈ out ↔
        x ∈ acc ∨ ∃ r ∈ rs, ∃ ds, evalRuleAcc facts [] r = some ds ∧ x ∈ ds := by
  intro rs
  induction rs with
  | nil =>
    intro acc out h x
    obtain rfl := Option.some.inj h
    simp
  | cons r rs ih =>
    intro acc out h x
    simp only [applyRulesAux] at h
    cases he : evalRuleAcc facts acc r with
    | none => rw [he] at h; cases h
    | some acc' =>
      rw [he] at h
      rw [ih acc' out h x, mem_evalRuleAcc he x]
      simp only [List.mem_cons]
      constructor
      · rintro ((hx | ⟨ds, hds, hxds⟩) | ⟨r', hr', rest⟩)
        · exact Or.inl hx
        · exact Or.inr ⟨r, Or.inl rfl, ds, hds, hxds⟩
        · exact Or.inr ⟨r', Or.inr hr', rest⟩
      · rintro (hx | ⟨r', rfl | hr', rest⟩)
        · exact Or.inl (Or.inl hx)
        · exact Or.inl (Or.inr rest)
        · exact Or.inr ⟨r', hr', rest⟩

/-- The rule loop preserves freedom from duplicates. -/
theorem nodup_applyRulesAux (facts : List Fact) :
    ∀ (rs : List String) (acc out : List Fact),
      applyRulesAux facts acc rs = some out → acc.Nodup → out.Nodup := by
  intro rs
  induction rs with
  | nil =>
    intro acc out h hn
    obtain rfl := Option.some.inj h
    exact hn
  | cons r rs ih =>
    intro acc out h hn
    simp only [applyRulesAux] at h
    cases he : evalRuleAcc facts acc r with
    | none => rw [he] at h; cases h
    | some acc' =>
      rw [he] at h
      exact ih acc' out h (nodup_evalRuleAcc he hn)

/-- The call parser succeeds exactly when the string contains exactly one
opening parenthesis (so the two-element unpacking cannot raise). -/
theorem parseCallRaw_isSome (s : String) :
    (parseCallRaw s).isSome = true ↔ (pySplitChar '(' s).length = 2 := by
  unfold parseCallRaw
  cases h : pySplitChar '(' s with
  | nil => simp [h]
  | cons a t =>
    cases t with
    | nil => simp [h]
    | cons b t' =>
      cases t' with
      | nil => simp [h]
      | cons c t'' => simp [h]

/-- If every body segment is well-formed, the body-call loop cannot raise. -/
theorem parseBodyPreds_isSome :
    ∀ (bs : List String), (∀ b ∈ bs, segWF b = true) →
      (parseBodyPreds bs).isSome = true := by
  intro bs
  induction bs with
  | nil => intro _; rfl
  | cons b bs ih =>
    intro h
    have hb := h b (List.mem_cons_self b bs)
    have hbs := ih fun b' hb' => h b' (List.mem_cons_of_mem _ hb')
    unfold parseBodyPreds
    by_cases hc : pyContainsChar '(' b = true ∧ pyContainsChar ')' b = true
    · rw [if_pos hc]
      have hlen : (pySplitChar '(' b).length = 2 := by
        unfold segWF at hb
        rw [hc.1, hc.2] at hb
        simpa using hb
      obtain ⟨n, a, hna⟩ := List.length_eq_two.mp hlen
      have hcall : parseCallRaw b =
          some (n, (pySplitChar ',' (pyStripChar ')' a)).map pyStrip) := by
        unfold parseCallRaw
        rw [hna]
      rw [hcall]
      simpa using hbs
    · rw [if_neg hc]
      exact hbs

/-- A rule string passing the decidable well-formedness check parses
without raising. -/
theorem ruleWF_parseRule (r : String) (h : ruleWF r = true) :
    (parseRule r).isSome = true := by
  unfold ruleWF at h
  unfold parseRule
  cases hs : pySplitColonDash r with
  | nil => rw [hs] at h; simp at h
  | cons hd t =>
    cases t with
    | nil => rw [hs] at h; simp at h
    | cons bd t' =>
      cases t' with
      | cons c t'' => rw [hs] at h; simp at h
      | nil =>
        rw [hs] at h
        simp only [Bool.and_eq_true, beq_iff_eq, List.all_eq_true] at h
        obtain ⟨hlen, hsegs⟩ := h
        obtain ⟨n, a, hna⟩ := List.length_eq_two.mp hlen
        have hcall : parseCallRaw (pyStrip hd) =
            some (n, (pySplitChar ',' (pyStripChar ')' a)).map pyStrip) := by
          unfold parseCallRaw
          rw [hna]
        dsimp only
        rw [hcall]
        have := parseBodyPreds_isSome (split_predicates (ruleBodyText bd)) hsegs
        simpa using this

/-! ## Claim theorems -/

/-- C1: evaluating the facts `parent(john,mary)` and `parent(mary,susan)`
against the single rule `grandparent(X,Y) :- parent(X,Z), parent(Z,Y)`
yields exactly the one derived fact `grandparent(john,susan)`; the rule
parses into the expected head and body calls, the evaluator enumerates the
full 2x2 cross-product of candidate facts, and exactly one of the four
combinations survives the consistent-binding check. -/
theorem grandparent_example :
    apply_rules [("parent", ["john", "mary"]), ("parent", ["mary", "susan"])]
      ["grandparent(X,Y) :- parent(X,Z), parent(Z,Y)"] =
      some [("grandparent", ["john", "susan"])] ∧
    parseRule "grandparent(X,Y) :- parent(X,Z), parent(Z,Y)" =
      some ("grandparent", ["X", "Y"],
        [("parent", ["X", "Z"]), ("parent", ["Z", "Y"])]) ∧
    (listProduct
      [fact_dict_lookup
          [("parent", ["john", "mary"]), ("parent", ["mary", "susan"])] "parent",
       fact_dict_lookup
          [("parent", ["john", "mary"]), ("parent", ["mary", "susan"])] "parent"]).length
      = 4 ∧
    ((listProduct
      [fact_dict_lookup
          [("parent", ["john", "mary"]), ("parent", ["mary", "susan"])] "parent",
       fact_dict_lookup
          [("parent", ["john", "mary"]), ("parent", ["mary", "susan"])] "parent"]).filter
        fun c => (matchCombo [("parent", ["X", "Z"]), ("parent", ["Z", "Y"])] c).isSome).length
      = 1 :=
  ⟨rfl, rfl, rfl, rfl⟩

/-- C2 counterexample: the body splitter does NOT keep the comma sitting at
parenthesis depth one in `p(a,(b,c)), q(d)` intact: the claimed two-segment
result is not what the code produces. -/
theorem split_predicates_nested_claim_false :
    split_predicates "p(a,(b,c)), q(d)" ≠ ["p(a,(b,c))", "q(d)"] := by
  decide

/-- C2 (amended): the regex-based splitter splits at a comma exactly when
no `)` occurs before the next `(` in the remainder of the string; on
`parent(X,Z), parent(Z,Y)` this gives the claimed two segments, but on
`p(a,(b,c)), q(d)` it produces the three segments
`["p(a", "(b,c))", "q(d)"]` — the comma inside the nested `(b,c)` is
indeed not a split point, but the depth-one comma after `a` is. -/
theorem split_predicates_actual_behavior :
    split_predicates "parent(X,Z), parent(Z,Y)" = ["parent(X,Z)", "parent(Z,Y)"] ∧
    split_predicates "p(a,(b,c)), q(d)" = ["p(a", "(b,c))", "q(d)"] :=
  ⟨rfl, rfl⟩

/-- C3 counterexample: the evaluator is NOT total on every list of rule
strings — on the rule string `a` (no `:-`) the two-element unpacking
`head, body = rule.split(':-')` raises `ValueError`, modelled by `none`. -/
theorem apply_rules_raises_on_malformed_rule :
    apply_rules [] ["a"] = none := rfl

/-- C3 (amended): for every fact list and every rule list whose rule
strings are well-formed (exactly one `:-`, exactly one `(` in the head,
and exactly one `(` in every body segment containing both parentheses),
the evaluator returns a (possibly empty) derived-fact set; as a pure
function of its inputs it is deterministic by construction. -/
theorem apply_rules_total_on_wf_rules (facts : List Fact) (rules : List String)
    (h : ∀ r ∈ rules, ruleWF r = true) :
    ∃ out, apply_rules facts rules = some out := by
  have hs := (applyRulesAux_isSome facts rules []).mpr
    fun r hr => ruleWF_parseRule r (h r hr)
  exact Option.isSome_iff_exists.mp hs

/-- C3 witness: a concrete well-formed input on which the amended totality
theorem applies. -/
theorem apply_rules_total_on_wf_rules_witness :
    (∀ r ∈ ["grandparent(X,Y) :- parent(X,Z), parent(Z,Y)"], ruleWF r = true) ∧
    ∃ out, apply_rules [("parent", ["john", "mary"])]
      ["grandparent(X,Y) :- parent(X,Z), parent(Z,Y)"] = some out :=
  ⟨by decide, apply_rules_total_on_wf_rules _ _ (by decide)⟩

/-- C4 (code bug): parsing is NOT exception-free on malformed individual
lines: the fact-shaped line `p(a(b)).` contains two `(`, so the unpacking
`predicate, args = line.strip('.').split('(')` raises `ValueError`
(modelled by `none`) and the well-formed neighbouring lines `p(a).` and
`q(c).` are lost with it — while the same text without the malformed line
parses fine. -/
theorem parse_logic_crashes_on_malformed_line :
    parse_logic "p(a).\np(a(b)).\nq(c)." = none ∧
    parse_logic "p(a).\nq(c)." = some ([("p", ["a"]), ("q", ["c"])], []) :=
  ⟨rfl, rfl⟩

/-- C5: during evaluation of one candidate combination every body term is
treated as a bindable variable — an unbound term is bound to the fact
value at its position, a term already bound to a different value rejects
the combination (`none`), a rejected combination contributes no derivation
to the accumulator, and a constant like `john` is bound exactly like a
variable (deriving `q(mary)` from fact `p(mary)` and rule
`q(john) :- p(john)`). -/
theorem binding_treats_all_terms_alike :
    (∀ (bnd : List (String × String)) (var val : String),
        bnd.lookup var = none → bindTerm bnd var val = some (bnd ++ [(var, val)])) ∧
    (∀ (bnd : List (String × String)) (var val v : String),
        bnd.lookup var = some v → v ≠ val → bindTerm bnd var val = none) ∧
    (∀ (p : String) (ha : List String) (bps : List (String × List String))
        (acc : List Fact) (combo : List (List String)),
        matchCombo bps combo = none → comboStep p ha bps acc combo = acc) ∧
    apply_rules [("p", ["mary"])] ["q(john) :- p(john)"] = some [("q", ["mary"])] := by
  refine ⟨?_, ?_, ?_, rfl⟩
  · intro bnd var val h
    simp [bindTerm, h]
  · intro bnd var val v h hne
    simp [bindTerm, h, hne]
  · intro p ha bps acc combo h
    simp [comboStep, h]

/-- C5 witness: the three binding behaviours at concrete inputs. -/
theorem binding_treats_all_terms_alike_witness :
    bindTerm [] "john" "mary" = some [("john", "mary")] ∧
    bindTerm [("Z", "mary")] "Z" "john" = none ∧
    comboStep "q" ["X"] [("p", ["a", "a"])] [] [["b", "c"]] = [] :=
  ⟨binding_treats_all_terms_alike.1 [] "john" "mary" (by decide),
   binding_treats_all_terms_alike.2.1 [("Z", "mary")] "Z" "john" "mary"
     (by decide) (by decide),
   binding_treats_all_terms_alike.2.2.1 "q" ["X"] [("p", ["a", "a"])] []
     [["b", "c"]] (by decide)⟩

/-- C6: the fact store is never extended with derived facts — appending a
rule to the rule list evaluates it against the store built from the
original facts only (the accumulated derived set flows only into the
deduplicating accumulator), and concretely a `greatgrandparent` rule whose
body mentions the derived predicate `grandparent` fires zero times in the
same run that derives the `grandparent` facts. -/
theorem single_pass_no_feedback :
    (∀ (facts : List Fact) (rs : List String) (r : String),
        apply_rules facts (rs ++ [r]) =
          (apply_rules facts rs).bind fun acc => evalRuleAcc facts acc r) ∧
    apply_rules [("parent", ["a", "b"]), ("parent", ["b", "c"]), ("parent", ["c", "d"])]
      ["grandparent(X,Y) :- parent(X,Z), parent(Z,Y)",
       "greatgrandparent(X,Y) :- grandparent(X,Z), parent(Z,Y)"] =
      some [("grandparent", ["a", "c"]), ("grandparent", ["b", "d"])] := by
  constructor
  · intro facts rs r
    unfold apply_rules
    rw [applyRulesAux_append]
    congr 1
    funext a
    simp only [applyRulesAux]
    cases evalRuleAcc facts a r <;> rfl
  · rfl

/-- C7: a successful combination with an unbound head parameter is not
rejected — head instantiation substitutes the sentinel `?` at the unbound
position, the derived fact is still added, and concretely the rule
`q(X,Y) :- p(X)` over fact `p(a)` derives `q(a,?)`. -/
theorem unbound_head_param_sentinel :
    (∀ (bnd : List (String × String)) (pre post : List String) (v : String),
        bnd.lookup (pyStrip v) = none →
        instantiateHead bnd (pre ++ v :: post) =
          instantiateHead bnd pre ++ "?" :: instantiateHead bnd post) ∧
    (∀ (p : String) (ha : List String) (bps : List (String × List String))
        (acc : List Fact) (combo : List (List String))
        (bnd : List (String × String)),
        matchCombo bps combo = some bnd →
        comboStep p ha bps acc combo = addFact acc (p, instantiateHead bnd ha)) ∧
    apply_rules [("p", ["a"])] ["q(X,Y) :- p(X)"] = some [("q", ["a", "?"])] := by
  refine ⟨?_, ?_, rfl⟩
  · intro bnd pre post v h
    simp [instantiateHead, h]
  · intro p ha bps acc combo bnd h
    simp [comboStep, h]

/-- C7 witness: sentinel substitution and unconditional derivation at
concrete inputs. -/
theorem unbound_head_param_sentinel_witness :
    instantiateHead [("X", "a")] (["X"] ++ "Y" :: []) =
      instantiateHead [("X", "a")] ["X"] ++ "?" :: instantiateHead [("X", "a")] [] ∧
    comboStep "q" ["X", "Y"] [("p", ["X"])] [] [["a"]] =
      addFact [] ("q", instantiateHead [("X", "a")] ["X", "Y"]) :=
  ⟨unbound_head_param_sentinel.1 [("X", "a")] ["X"] [] "Y" (by decide),
   unbound_head_param_sentinel.2.1 "q" ["X", "Y"] [("p", ["X"])] [] [["a"]]
     [("X", "a")] (by decide)⟩

/-- C8: the derived-fact output never contains the same
(predicate name, value tuple) twice, and concretely two rules deriving
`q(a)`, or two combinations deriving `q(a)` from duplicate raw facts,
produce it exactly once. -/
theorem derived_facts_deduplicated :
    (∀ (facts : List Fact) (rules : List String) (out : List Fact),
        apply_rules facts rules = some out → out.Nodup) ∧
    apply_rules [("p", ["a"])] ["q(X) :- p(X)", "q(Y) :- p(Y)"] =
      some [("q", ["a"])] ∧
    apply_rules [("p", ["a"]), ("p", ["a"])] ["q(X) :- p(X)"] =
      some [("q", ["a"])] := by
  refine ⟨?_, rfl, rfl⟩
  intro facts rules out h
  exact nodup_applyRulesAux facts rules [] out h List.nodup_nil

/-- C8 witness: the deduplication theorem applied at a concrete run. -/
theorem derived_facts_deduplicated_witness :
    apply_rules [("p", ["a"])] ["q(X) :- p(X)"] = some [("q", ["a"])] ∧
    ([("q", ["a"])] : List Fact).Nodup :=
  ⟨by rfl,
   derived_facts_deduplicated.1 [("p", ["a"])] ["q(X) :- p(X)"] [("q", ["a"])]
     (by rfl)⟩

/-- C9: permuting the rule list does not change the evaluator's output as
a set — either both runs raise, or both return derived lists with the same
underlying finite set of facts. -/
theorem rule_order_irrelevant (facts : List Fact) (r₁ r₂ : List String)
    (hperm : r₁.Perm r₂) :
    (apply_rules facts r₁).map List.toFinset =
      (apply_rules facts r₂).map List.toFinset := by
  cases h1 : apply_rules facts r₁ with
  | none =>
    cases h2 : apply_rules facts r₂ with
    | none => rfl
    | some o₂ =>
      exfalso
      have hs2 : (applyRulesAux facts [] r₂).isSome = true := by
        rw [show applyRulesAux facts [] r₂ = some o₂ from h2]
        rfl
      have hall := (applyRulesAux_isSome facts r₂ []).mp hs2
      have hs1 : (applyRulesAux facts [] r₁).isSome = true :=
        (applyRulesAux_isSome facts r₁ []).mpr
          fun r hr => hall r (hperm.mem_iff.mp hr)
      rw [show applyRulesAux facts [] r₁ = none from h1] at hs1
      cases hs1
  | some o₁ =>
    cases h2 : apply_rules facts r₂ with
    | none =>
      exfalso
      have hs1 : (applyRulesAux facts [] r₁).isSome = true := by
        rw [show applyRulesAux facts [] r₁ = some o₁ from h1]
        rfl
      have hall := (applyRulesAux_isSome facts r₁ []).mp hs1
      have hs2 : (applyRulesAux facts [] r₂).isSome = true :=
        (applyRulesAux_isSome facts r₂ []).mpr
          fun r hr => hall r (hperm.mem_iff.mpr hr)
      rw [show applyRulesAux facts [] r₂ = none from h2] at hs2
      cases hs2
    | some o₂ =>
      simp only [Option.map_some']
      congr 1
      ext x
      simp only [List.mem_toFinset]
      rw [mem_applyRulesAux facts r₁ [] o₁ h1 x,
        mem_applyRulesAux facts r₂ [] o₂ h2 x]
      simp only [List.not_mem_nil, false_or]
      constructor
      · rintro ⟨r, hr, rest⟩
        exact ⟨r, hperm.mem_iff.mp hr, rest⟩
      · rintro ⟨r, hr, rest⟩
        exact ⟨r, hperm.mem_iff.mpr hr, rest⟩

/-- C9 witness: swapping two concrete rules leaves the output set equal. -/
theorem rule_order_irrelevant_witness :
    (["q(X) :- p(X)", "r(Y) :- p(Y)"] : List String).Perm
      ["r(Y) :- p(Y)", "q(X) :- p(X)"] ∧
    (apply_rules [("p", ["a"])] ["q(X) :- p(X)", "r(Y) :- p(Y)"]).map List.toFinset =
      (apply_rules [("p", ["a"])] ["r(Y) :- p(Y)", "q(X) :- p(X)"]).map List.toFinset :=
  ⟨List.Perm.swap _ _ _,
   rule_order_irrelevant [("p", ["a"])] _ _ (List.Perm.swap _ _ _)⟩

/-- C10: while a rule is being accumulated (`current_rule` non-empty),
every non-empty non-comment line — whatever its own shape — is appended to
the pending rule (closing it when the line ends with `.`) and the fact list
is untouched; concretely the fact line `p(a).` inside a pending rule ends
up inside the rule string instead of the fact list, and a rule still open
at end of input appears in neither output list. -/
theorem rule_accumulation_swallows_lines :
    (∀ (st : ParseState) (line : String),
        st.cur ≠ "" → pyStrip line ≠ "" →
        pyStartsWithChar '%' (pyStrip line) = false →
        parseLogicLine st line = some (
          if pyEndsWithChar '.' (pyStrip (st.cur ++ " " ++ pyStrip line)) = true then
            ⟨st.facts,
             st.rules ++ [pyStripChar '.' (pyStrip (st.cur ++ " " ++ pyStrip line))],
             ""⟩
          else ⟨st.facts, st.rules, st.cur ++ " " ++ pyStrip line⟩)) ∧
    parse_logic "g(X) :-\np(a).\nq(b)." = some ([("q", ["b"])], ["g(X) :- p(a)"]) ∧
    parse_logic "p(a).\ng(X) :- q(X)" = some ([("p", ["a"])], []) := by
  refine ⟨?_, rfl, rfl⟩
  intro st line hcur hne hpc
  simp only [parseLogicLine]
  rw [if_neg, if_pos (Or.inr hcur)]
  · split <;> rfl
  · rintro (h1 | h2)
    · exact hne h1
    · rw [hpc] at h2
      cases h2

/-- C10 witness: the accumulation step applied to a concrete pending state
and a well-formed fact line. -/
theorem rule_accumulation_swallows_lines_witness :
    (ParseState.mk [] [] " g(X) :-").cur ≠ "" ∧
    pyStrip "p(a)." ≠ "" ∧
    pyStartsWithChar '%' (pyStrip "p(a).") = false ∧
    parseLogicLine (ParseState.mk [] [] " g(X) :-") "p(a)." = some (
      if pyEndsWithChar '.' (pyStrip (" g(X) :-" ++ " " ++ pyStrip "p(a).")) = true then
        ⟨[], [] ++ [pyStripChar '.' (pyStrip (" g(X) :-" ++ " " ++ pyStrip "p(a)."))], ""⟩
      else ⟨[], [], " g(X) :-" ++ " " ++ pyStrip "p(a)."⟩) :=
  ⟨by decide, by decide, by decide,
   rule_accumulation_swallows_lines.1 (ParseState.mk [] [] " g(X) :-") "p(a)."
     (by decide) (by decide) (by decide)⟩

end PyLogic
